import Mathlib

/-!
A verification development for the FBX-to-MDL conversion service
(`backend/app.py`, `backend/utils.py`, `backend/fbx_processor.py`).

The Python code is shallowly embedded: pure fragments become Lean
functions, stateful fragments become explicit state-passing functions,
and interactions with the outside world (the clock, subprocesses, the
file system) become explicit parameters describing the outcome of each
external operation.  Timestamps (`time.time()` / `datetime.now()`
values) are modelled as rationals.
-/

namespace FbxService


namespace RateLimiter

/-! ## `utils.RateLimiter` (src/backend/utils.py, lines 11–54)

The per-client state is the list of admitted request timestamps, in
the order they were appended.  `is_allowed` is the body of
`RateLimiter.is_allowed` for a single client: it prunes entries with
`current_time - req_time >= time_window`, then admits iff fewer than
`max_requests` remain, appending the current time only on admission. -/

/-- The list comprehension
`[t for t in requests if current_time - t < time_window]`. -/
def prune (W now : ℚ) (l : List ℚ) : List ℚ :=
  l.filter (fun t => decide (now - t < W))

/-- `RateLimiter.is_allowed`, for one client: returns the boolean result
and the client's stored timestamp list after the call. -/
def is_allowed (N : ℕ) (W now : ℚ) (l : List ℚ) : Bool × List ℚ :=
  let cleaned := prune W now l
  if cleaned.length < N then (true, cleaned ++ [now]) else (false, cleaned)

/-- Run a sequence of `is_allowed` calls at the given times from state `s`,
collecting the times of the calls that were admitted (returned `true`). -/
def runAdmitted (N : ℕ) (W : ℚ) : List ℚ → List ℚ → List ℚ
  | _, [] => []
  | s, t :: ts =>
    let r := is_allowed N W t s
    if r.1 then t :: runAdmitted N W r.2 ts else runAdmitted N W r.2 ts

/-- `min(list)` for a nonempty Python list, as a left fold. -/
def listMin (t : ℚ) (ts : List ℚ) : ℚ := ts.foldl min t

/-- `RateLimiter.get_reset_time`: `0` on an empty stored list, otherwise
`min(stored) + time_window`.  Note: it does **not** prune the stored list. -/
def get_reset_time (W : ℚ) (l : List ℚ) : ℚ :=
  match l with
  | [] => 0
  | t :: ts => listMin t ts + W

/-- Membership predicate for the half-open window `[a, a + W)`. -/
def inWin (a W t : ℚ) : Bool := decide (a ≤ t ∧ t < a + W)

end RateLimiter

/-- Modelled from the spec for comparison with the code (claim C8):
"resetAt(clientKey) = oldest retained timestamp + windowSeconds, or now if
empty", where "retained" means within the trailing window at query time. -/
def spec_resetAt (W now : ℚ) (l : List ℚ) : ℚ :=
  match RateLimiter.prune W now l with
  | [] => now
  | t :: ts => RateLimiter.listMin t ts + W

/-! ## Shared string helpers

Python strings are modelled as `List Char` and byte strings as `List ℕ`, so
that substring, prefix and suffix tests stay fully executable. -/

/-- Substring containment test (`needle in haystack` for Python strings
and `bytes`). -/
def infixOfB {α : Type} [BEq α] (p : List α) : List α → Bool
  | [] => p.isEmpty
  | c :: rest => p.isPrefixOf (c :: rest) || infixOfB p rest

/-- Suffix test (`str.endswith`): the reversed pattern is a prefix of the
reversed string. -/
def endsWithB {α : Type} [BEq α] (p l : List α) : Bool :=
  p.reverse.isPrefixOf l.reverse

/-- `str.endswith` on `String`s, via the character lists (the built-in
`String.endsWith` does not reduce in the kernel). -/
def strEndsWith (s p : String) : Bool := endsWithB p.toList s.toList

/-- Helper for `os.path.splitext`: on the reversed character list, split at
the first `'.'`, returning (reversed extension body, reversed base). -/
def breakAtDotRev : List Char → Option (List Char × List Char)
  | [] => none
  | c :: rest =>
    if c = '.' then some ([], rest)
    else (breakAtDotRev rest).map (fun p => (c :: p.1, p.2))

/-- `os.path.splitext` on a plain (slash-free) filename: splits off the
extension at the last dot, except when everything before that dot is dots. -/
def splitext (cs : List Char) : List Char × List Char :=
  match breakAtDotRev cs.reverse with
  | none => (cs, [])
  | some (extRev, baseRev) =>
    if baseRev.reverse.all (fun c => c == '.') then (cs, [])
    else (baseRev.reverse, '.' :: extRev.reverse)

/-- The bytes of an ASCII string literal. -/
def strBytes (s : String) : List ℕ := s.toList.map Char.toNat

namespace SecurityValidator

/-! ## `utils.SecurityValidator` (src/backend/utils.py, lines 56–241)

An uploaded file handle carries a filename, its content bytes, and the
current read position.  `validate_file` seeks to 0, reads the whole content,
and seeks to 0 again; it never restores the original position.  The MIME
sniffer (`magic.from_buffer`) is an external C library, passed in as a
function; `none` models a detection failure (exception), which the code
treats as a pass (fail-open). -/

structure UploadedFile where
  filename : List Char
  content : List ℕ
  pos : ℕ
  deriving DecidableEq

def allowed_extensions : List (List Char) := [".fbx".toList, ".FBX".toList]

def max_file_size : ℕ := 100 * 1024 * 1024

def min_file_size : ℕ := 1024

def dangerous_patterns : List (List ℕ) :=
  [strBytes "<script", strBytes "javascript:", strBytes "vbscript:",
   strBytes "data:text/html", strBytes "<?php", strBytes "<%",
   strBytes "exec(", strBytes "system(", strBytes "shell_exec(",
   strBytes "passthru(", strBytes "eval(", strBytes "assert(",
   strBytes "file_get_contents(", strBytes "file_put_contents(",
   strBytes "fopen(", strBytes "fwrite(", strBytes "include(",
   strBytes "require("]

/-- `_validate_extension`: extension of the lower-cased filename must be in
the allow-list. -/
def validate_extension (filename : List Char) : Bool :=
  let ext := (splitext (filename.map Char.toLower)).2
  allowed_extensions.contains ext

/-- `_validate_file_size`. -/
def validate_file_size (content : List ℕ) : Bool :=
  decide (min_file_size ≤ content.length) && decide (content.length ≤ max_file_size)

def allowed_mime_types : List (List Char) :=
  ["application/octet-stream".toList, "application/x-fbx".toList,
   "model/fbx".toList, "application/fbx".toList]

/-- `_validate_mime_type`; `none` models a `magic` failure (fail-open). -/
def validate_mime_type (mime : List ℕ → Option (List Char)) (content : List ℕ) : Bool :=
  match mime content with
  | none => true
  | some m => allowed_mime_types.contains m || "application/".toList.isPrefixOf m

/-- ASCII lower-casing of one byte (`bytes.lower`). -/
def lowerByte (b : ℕ) : ℕ := if 65 ≤ b ∧ b ≤ 90 then b + 32 else b

/-- `_validate_content_safety`: no deny-listed marker occurs in the
lower-cased content. -/
def validate_content_safety (content : List ℕ) : Bool :=
  dangerous_patterns.all (fun p => !infixOfB p (content.map lowerByte))

/-- `_validate_binary_fbx`. -/
def validate_binary_fbx (content : List ℕ) : Bool :=
  if content.length < 32 then false
  else if !(strBytes "Kaydara FBX Binary").isPrefixOf content then false
  else if content.length < 27 then false
  else true

/-- `_validate_ascii_fbx`: the lenient utf-8 decode followed by a search for
the required section keywords is modelled as a byte-level substring search
(the keywords are ASCII). -/
def validate_ascii_fbx (content : List ℕ) : Bool :=
  [strBytes "FBXHeaderExtension", strBytes "FBXVersion",
   strBytes "Definitions", strBytes "Objects"].all (fun k => infixOfB k content)

/-- `_validate_fbx_structure`. -/
def validate_fbx_structure (content : List ℕ) : Bool :=
  if (strBytes "Kaydara FBX Binary").isPrefixOf content then
    validate_binary_fbx content
  else if (strBytes "; FBX").isPrefixOf content
      || infixOfB (strBytes "FBXHeaderExtension") (content.take 1024) then
    validate_ascii_fbx content
  else false

/-- `SecurityValidator.validate_file`: the checks in source order, with the
file handle's position updated exactly as the code's `seek` calls do.  The
"invalid file object" guard is modelled as an empty filename. -/
def validate_file (mime : List ℕ → Option (List Char)) (f : UploadedFile) :
    Bool × UploadedFile :=
  if f.filename.isEmpty then (false, f)
  else if !validate_extension f.filename then (false, f)
  else
    -- file.seek(0); content = file.read(); file.seek(0)
    let f' : UploadedFile := { f with pos := 0 }
    if !validate_file_size f.content then (false, f')
    else if !validate_mime_type mime f.content then (false, f')
    else if !validate_content_safety f.content then (false, f')
    else if !validate_fbx_structure f.content then (false, f')
    else (true, f')

end SecurityValidator

namespace FBXProcessor

/-! ## `fbx_processor.FBXProcessor` (src/backend/fbx_processor.py)

External processes are modelled by an outcome parameter: a run either
completes with an exit code and captured output, hits its timeout
(`subprocess.TimeoutExpired`), or fails to launch.  The file system is
modelled by explicit parameters (the `.smd` files found after Stage 1, an
existence predicate for compiler outputs, a flag for whether the artifact
copy loop raises). -/

/-- Outcome of one `subprocess.run` invocation. -/
inductive RunOutcome : Type
  | completed (returncode : ℤ) (stdout stderr : String)
  | timedOut
  | launchError (msg : String)
  deriving DecidableEq

/-- Environment of `_compile_mdl`: whether `studiomdl.exe` exists, how the
wine subprocess behaves, and which output files exist afterwards. -/
structure CompileEnv : Type where
  studiomdlExists : Bool
  run : RunOutcome
  fsExists : String → Bool

def possible_extensions : List String := [".mdl", ".mdl.vtx", ".phy", ".vvd"]

/-- `FBXProcessor._compile_mdl` for a descriptor with base name `qcBase`.
Returns the raised-or-returned result together with a flag recording whether
the `compile.log` artifact was written.  The log write sits *after*
`subprocess.run` returns, so a timeout or a launch failure skips it; the
non-zero-exit and missing-output failures are raised after the write. -/
def compile_mdl (qcBase : String) (env : CompileEnv) :
    Except String (List String) × Bool :=
  if !env.studiomdlExists then
    (.error "studiomdl.exe not found at /usr/local/wine/cstrike/studiomdl.exe", false)
  else
    match env.run with
    | .timedOut => (.error "studiomdl compilation timed out", false)
    | .launchError m => (.error ("studiomdl compilation error: " ++ m), false)
    | .completed rc _ _ =>
      -- compile.log is written here, unconditionally on this path
      if rc ≠ 0 then
        (.error "studiomdl compilation error: studiomdl compilation failed. Check compile.log for details.", true)
      else
        let generated :=
          (possible_extensions.map (fun e => qcBase ++ e)).filter env.fsExists
            ++ ["compile.log"]
        if generated.any (fun f => strEndsWith f ".mdl") then (.ok generated, true)
        else (.error "studiomdl compilation error: No MDL file was generated", true)

/-- Outcome of the Blender subprocess in Stage 1. -/
inductive BlenderOutcome : Type
  | completed (returncode : ℤ) (stderr : String)
  | timedOut
  deriving DecidableEq

/-- Environment of one `convert_fbx_to_mdl` call. -/
structure ConvertEnv : Type where
  blender : BlenderOutcome
  /-- the `*.smd` files listed in the scratch directory after Blender exits 0 -/
  smdFiles : List String
  compile : CompileEnv
  /-- whether the Stage-4 artifact copy loop completes without raising -/
  copyOk : Bool
  /-- base name of the uploaded file, without extension -/
  fbxBase : String

/-- `FBXProcessor._convert_fbx_to_smd`: raise on timeout, non-zero exit, or
an empty `.smd` listing; otherwise return the listed files. -/
def convert_fbx_to_smd (env : ConvertEnv) : Except String (List String) :=
  match env.blender with
  | .timedOut => .error "Blender conversion timed out"
  | .completed rc stderr =>
    if rc ≠ 0 then
      .error ("Blender conversion error: Blender conversion failed: " ++ stderr)
    else if env.smdFiles.isEmpty then
      .error "Blender conversion error: No SMD files were generated"
    else .ok env.smdFiles

structure ConvertResult : Type where
  success : Bool
  error : Option String
  files : List String
  deriving DecidableEq

/-- Events observable during a `convert_fbx_to_mdl` call: the progress
reports in order, whether Stage 2 (descriptor generation) and Stage 3
(compilation) ran, and whether the scratch temp directory was removed by
the `finally` block. -/
structure ConvertTrace : Type where
  reports : List (ℕ × String)
  stage2Ran : Bool
  stage3Ran : Bool
  tempRemoved : Bool
  deriving DecidableEq

/-- `FBXProcessor.convert_fbx_to_mdl`: the staged pipeline with its
try/except/finally.  Exceptions raised by any stage are caught and turned
into a `success := false` result; the `finally` block removes the scratch
directory on every path.  The copy loop is modelled all-or-nothing via
`copyOk`, and the copied artifact list as the full result list. -/
def convert_fbx_to_mdl (env : ConvertEnv) : ConvertResult × ConvertTrace :=
  let r10 := [(10, "Converting FBX to SMD using Blender...")]
  match convert_fbx_to_smd env with
  | .error e =>
    (⟨false, some e, []⟩, ⟨r10, false, false, true⟩)
  | .ok smds =>
    let r40 := r10 ++ [(40, "Generating QC file...")]
    let qcFile := env.fbxBase ++ ".qc"
    let r60 := r40 ++ [(60, "Compiling MDL file...")]
    match (compile_mdl env.fbxBase env.compile).1 with
    | .error e =>
      (⟨false, some e, []⟩, ⟨r60, true, true, true⟩)
    | .ok mdls =>
      let r90 := r60 ++ [(90, "Copying results...")]
      if env.copyOk then
        (⟨true, none, smds ++ [qcFile] ++ mdls⟩,
         ⟨r90 ++ [(100, "Conversion completed!")], true, true, true⟩)
      else
        (⟨false, some "copy failed", []⟩, ⟨r90, true, true, true⟩)

/-! ### `FBXProcessor._generate_qc_file` (lines 321–382)

A pure text generator.  Filenames and text are `List Char`; the result is
the list of strings passed to `qc.write`, in order (the file content is
their concatenation).  `scale` is kept as the textual form the f-string
interpolates. -/

def refPat : List Char := ['_', 'r', 'e', 'f']

/-- The classification test of the loop:
`"_ref" in filename or filename.endswith("_ref.smd")`. -/
def isRefName (f : List Char) : Bool :=
  infixOfB refPat f || endsWithB "_ref.smd".toList f

/-- The loop over `smd_files`, with the running reference and animation
accumulator: the *last* matching file wins as reference, the others
accumulate as animation files in order. -/
def classifyAux : Option (List Char) → List (List Char) → List (List Char) →
    Option (List Char) × List (List Char)
  | r, acc, [] => (r, acc)
  | r, acc, f :: fs =>
    if isRefName f then classifyAux (some f) acc fs
    else classifyAux r (acc ++ [f]) fs

def classify (smds : List (List Char)) : Option (List Char) × List (List Char) :=
  classifyAux none [] smds

/-- `if not ref_smd and smd_files: ref_smd = basename(smd_files[0])`. -/
def selectRef (smds : List (List Char)) : Option (List Char) :=
  match (classify smds).1 with
  | some r => some r
  | none => smds.head?

/-- Sequence naming: strip the extension, then strip the `{base}_` prefix
when present. -/
def stripSeqName (base f : List Char) : List Char :=
  let an := (splitext f).1
  if (base ++ ['_']).isPrefixOf an then an.drop (base.length + 1) else an

def seqLine (name f : List Char) : List Char :=
  "$sequence \"".toList ++ name ++ "\" \"".toList ++ f ++ "\" fps 30\n".toList

/-- `FBXProcessor._generate_qc_file`: the exact sequence of `qc.write`
calls.  `base` is the basename of the input without extension, `smds` the
basenames of the intermediate files. -/
def generate_qc_file (base : List Char) (smds : List (List Char))
    (scale bodygroup : List Char) : List (List Char) :=
  let ref := selectRef smds
  let anims := (classify smds).2
  ["$modelname \"".toList ++ base ++ ".mdl\"\n".toList,
   "$cd \".\"\n".toList,
   "$cdtexture \".\"\n".toList,
   "$scale ".toList ++ scale ++ "\n\n".toList]
  ++ (match ref with
      | some r =>
        ["$body \"".toList ++ bodygroup ++ "\" \"".toList ++ r ++ "\"\n\n".toList]
      | none => [])
  ++ (if anims.isEmpty then
        match ref with
        | some r => ["$sequence \"idle\" \"".toList ++ r ++ "\" fps 30\n".toList]
        | none => []
      else anims.map (fun f => seqLine (stripSeqName base f) f))
  ++ ["\n".toList,
      "// GoldSrc compatibility settings\n".toList,
      "$flags 0\n".toList,
      "$origin 0 0 0\n".toList,
      "$eyeposition 0 0 0\n".toList,
      "$bbox 0 0 0 0 0 0\n".toList,
      "$cbox 0 0 0 0 0 0\n".toList,
      "\n// Texture settings\n".toList,
      "$texrendermode \"default.bmp\" masked\n".toList,
      "$texrendermode \"default\" masked\n".toList]

/-- The `$body` declarations among the writes. -/
def bodyEntries (writes : List (List Char)) : List (List Char) :=
  writes.filter (fun l => "$body".toList.isPrefixOf l)

/-- The `$sequence` declarations among the writes. -/
def seqEntries (writes : List (List Char)) : List (List Char) :=
  writes.filter (fun l => "$sequence".toList.isPrefixOf l)

/-! ### Lemmas for the QC generator (claim C5) -/

end FBXProcessor

namespace App

/-! ## `app.py` (the Flask boundary and the job registry)

The job registry (`jobs`) is an association list keyed by job id.  Clock
readings are again rationals.  The upload handler's external effects
(whether the request carries a file, the outcome of `SecurityValidator`,
`float(scale)` parsing, and whether `file.save` raises) are environment
fields; the background worker (`process_fbx_job`) is driven by a
`ConvertEnv` plus flags for `os.makedirs` and `create_result_zip`. -/

/-- One `ConversionJob` record. -/
structure JobRec : Type where
  status : String
  progress : ℕ
  errorMessage : Option String
  hasResult : Bool
  created : ℚ
  deriving DecidableEq

/-- `ConversionJob.__init__`. -/
def newJob (now : ℚ) : JobRec := ⟨"queued", 0, none, false, now⟩

/-- Response of the `/status/<job_id>` route.  Both `notFound` and
`expired` are HTTP 404 responses ("Job not found" / "Job expired"). -/
inductive StatusResp : Type
  | notFound
  | expired
  | ok (status : String) (progress : ℕ) (error : Option String) (hasResult : Bool)
  deriving DecidableEq

/-- `cleanup_job`: drop the registry entry (and its output directory). -/
def cleanup_job (jid : String) (jobs : List (String × JobRec)) :
    List (String × JobRec) :=
  jobs.filter (fun p => !(p.1 == jid))

/-- `get_job_status`: lazy TTL eviction applies only to jobs whose status is
`completed` or `failed`. -/
def get_job_status (now : ℚ) (jobs : List (String × JobRec)) (jid : String) :
    StatusResp × List (String × JobRec) :=
  match List.lookup jid jobs with
  | none => (.notFound, jobs)
  | some j =>
    if (j.status = "completed" ∨ j.status = "failed") ∧ j.created < now - 3600 then
      (.expired, cleanup_job jid jobs)
    else
      (.ok j.status j.progress j.errorMessage j.hasResult, jobs)

/-- One iteration of the `cleanup_old_jobs` background sweep: evict every
job older than one hour, regardless of status. -/
def cleanup_old_jobs_step (now : ℚ) (jobs : List (String × JobRec)) :
    List (String × JobRec) :=
  jobs.filter (fun p => !(decide (3600 < now - p.2.created)))

/-- Observable outcome of the background worker `process_fbx_job` for one
job: the successive values taken by the job's `progress` field (starting
from the 0 set at creation), the final status, and the error message. -/
structure JobOutcome : Type where
  history : List ℕ
  finalStatus : String
  error : Option String
  deriving DecidableEq

/-- `process_fbx_job`: runs the conversion, packages the result into a ZIP
on success, and downgrades every caught exception to a failed job.
`outputDirOk` models `os.makedirs`, `zipOk` models `create_result_zip`. -/
def process_fbx_job (cenv : FBXProcessor.ConvertEnv) (outputDirOk zipOk : Bool) :
    JobOutcome :=
  if !outputDirOk then
    ⟨[0], "failed", some "makedirs failed"⟩
  else
    let rt := FBXProcessor.convert_fbx_to_mdl cenv
    let hist := 0 :: (rt.2.reports.map Prod.fst)
    if rt.1.success then
      if zipOk then ⟨hist ++ [100], "completed", none⟩
      else ⟨hist, "failed", some "zip creation failed"⟩
    else ⟨hist, "failed", rt.1.error⟩

/-- Environment of one `/upload` request. -/
structure UploadEnv : Type where
  now : ℚ
  /-- `'file' in request.files` -/
  hasFile : Bool
  filename : String
  /-- outcome of `security_validator.validate_file(file)` -/
  validOk : Bool
  /-- `float(scale)`: `none` models `ValueError` -/
  scaleVal : Option ℚ
  /-- whether `file.save(upload_path)` completes without raising -/
  saveOk : Bool

inductive UploadResp : Type
  | rateLimited
  | noFile
  | noFilename
  | invalidFile
  | badScale
  | serverError
  | accepted (jobId : String)
  deriving DecidableEq

/-- `upload_file`: rate limit first, then the synchronous checks in source
order; the job record is created after parameter validation and before
`file.save`.  The admitted timestamp list `r.2` is never rolled back, on any
path. -/
def upload_file (N : ℕ) (W : ℚ) (env : UploadEnv) (rs : List ℚ)
    (jobs : List (String × JobRec)) (jid : String) :
    UploadResp × List ℚ × List (String × JobRec) :=
  let r := RateLimiter.is_allowed N W env.now rs
  let rest : UploadResp × List (String × JobRec) :=
    if !r.1 then (.rateLimited, jobs)
    else if !env.hasFile then (.noFile, jobs)
    else if env.filename = "" then (.noFilename, jobs)
    else if !env.validOk then (.invalidFile, jobs)
    else
      match env.scaleVal with
      | none => (.badScale, jobs)
      | some s =>
        if s ≤ 0 ∨ 100 < s then (.badScale, jobs)
        else
          let jobs' := jobs ++ [(jid, newJob env.now)]
          if !env.saveOk then (.serverError, jobs')
          else (.accepted jid, jobs')
  (rest.1, r.2, rest.2)

end App

/-! ## Theorems -/

/-! ## Generic list helpers -/

/-- If `p` implies `q` on members of `l`, the `p`-count is at most the `q`-count. -/
theorem countP_imp_le {α : Type} (l : List α) (p q : α → Bool)
    (h : ∀ x ∈ l, p x = true → q x = true) : l.countP p ≤ l.countP q :=
  List.countP_mono_left h

/-- Filtering strictly shrinks a list that contains an element failing the predicate. -/
theorem length_filter_lt_of_mem {α : Type} {l : List α} {p : α → Bool} {x : α}
    (hx : x ∈ l) (hpx : p x = false) : (l.filter p).length < l.length := by
  induction l with
  | nil => cases hx
  | cons y ys ih =>
    rcases List.mem_cons.mp hx with h | h
    · subst h
      simp only [List.filter_cons, hpx, List.length_cons]
      exact Nat.lt_succ_of_le (List.length_filter_le p ys)
    · simp only [List.filter_cons, List.length_cons]
      cases hpy : p y with
      | true => simpa using Nat.succ_lt_succ (ih h)
      | false => exact Nat.lt_succ_of_lt (ih h)

namespace RateLimiter

theorem prune_prune {W tp t : ℚ} (h : tp ≤ t) (l : List ℚ) :
    prune W t (prune W tp l) = prune W t l := by
  unfold prune
  rw [List.filter_filter]
  apply List.filter_congr
  intro x _
  by_cases hx : t - x < W
  · have hx' : tp - x < W := by linarith
    simp [hx, hx']
  · simp [hx]

theorem prune_sub (W now : ℚ) (l : List ℚ) :
    ∀ x ∈ prune W now l, x ∈ l := fun _ hx => (List.mem_filter.mp hx).1

/-- Invariant-carrying induction for the rolling-window bound: starting from
a state that is exactly the pruned list of previously admitted timestamps,
every window of length `W` ends up containing at most `N` admitted calls. -/
theorem runAdmitted_bound (N : ℕ) (W : ℚ) (hW : 0 < W) :
    ∀ (ts : List ℚ) (tp : ℚ) (adm : List ℚ),
      List.Chain (· ≤ ·) tp ts →
      (∀ t ∈ adm, t ≤ tp) →
      (∀ a, adm.countP (inWin a W) ≤ N) →
      ∀ a, ((adm ++ runAdmitted N W (prune W tp adm) ts).countP (inWin a W)) ≤ N := by
  intro ts
  induction ts with
  | nil =>
    intro tp adm _ _ hcount a
    simpa [runAdmitted] using hcount a
  | cons t ts ih =>
    intro tp adm hchain hle hcount a
    rcases List.chain_cons.mp hchain with ⟨htp, hchain'⟩
    have hclean : prune W t (prune W tp adm) = prune W t adm := prune_prune htp adm
    by_cases hadm : (prune W t (prune W tp adm)).length < N
    · -- the call at time `t` is admitted
      have hrun : runAdmitted N W (prune W tp adm) (t :: ts)
          = t :: runAdmitted N W (prune W t (prune W tp adm) ++ [t]) ts := by
        simp only [runAdmitted, is_allowed]
        rw [if_pos hadm, if_pos rfl]
      rw [hrun, hclean]
      have hstate : prune W t adm ++ [t] = prune W t (adm ++ [t]) := by
        unfold prune
        rw [List.filter_append]
        congr 1
        simp [sub_self, hW]
      rw [hstate]
      have hle' : ∀ x ∈ adm ++ [t], x ≤ t := by
        intro x hx
        rcases List.mem_append.mp hx with h | h
        · exact le_trans (hle x h) htp
        · have hxt : x = t := by simpa using h
          exact hxt.le
      have hcount' : ∀ b, (adm ++ [t]).countP (inWin b W) ≤ N := by
        intro b
        rw [List.countP_append]
        by_cases hbt : inWin b W t = true
        · -- `t` itself lies in `[b, b + W)`; every admitted timestamp in that
          -- window survives the pruning at time `t`, so there were < N of them
          have hb1 : b ≤ t := by
            have := of_decide_eq_true hbt
            exact this.1
          have hb2 : t < b + W := by
            have := of_decide_eq_true hbt
            exact this.2
          have hmono : adm.countP (inWin b W) ≤ adm.countP (fun x => decide (t - x < W)) := by
            apply countP_imp_le
            intro x _ hpx
            have hx := of_decide_eq_true hpx
            have : t - x < W := by
              rcases hx with ⟨hbx, _⟩
              linarith
            exact decide_eq_true this
          have hfl : adm.countP (fun x => decide (t - x < W)) = (prune W t adm).length := by
            unfold prune
            rw [List.countP_eq_length_filter]
          rw [hclean] at hadm
          have hlt : adm.countP (inWin b W) < N := by
            calc adm.countP (inWin b W)
                ≤ adm.countP (fun x => decide (t - x < W)) := hmono
              _ = (prune W t adm).length := hfl
              _ < N := hadm
          have : ([t] : List ℚ).countP (inWin b W) ≤ 1 := by
            simp [List.countP_cons, hbt]
          omega
        · have hbtf : inWin b W t = false := Bool.eq_false_iff.mpr hbt
          have hzero : ([t] : List ℚ).countP (inWin b W) = 0 := by
            simp [List.countP_cons, hbtf]
          rw [hzero]
          simpa using hcount b
      have := ih t (adm ++ [t]) hchain' hle' hcount' a
      simpa [List.append_assoc] using this
    · -- the call at time `t` is rejected
      have hrun : runAdmitted N W (prune W tp adm) (t :: ts)
          = runAdmitted N W (prune W t (prune W tp adm)) ts := by
        simp only [runAdmitted, is_allowed]
        rw [if_neg hadm, if_neg (by simp)]
      rw [hrun, hclean]
      exact ih t adm hchain' (fun x hx => le_trans (hle x hx) htp) hcount a

/-- Rolling-window bound from the empty initial state (a fresh client). -/
theorem runAdmitted_window (N : ℕ) (W : ℚ) (hW : 0 < W) (times : List ℚ)
    (hs : times.Chain' (· ≤ ·)) (a : ℚ) :
    (runAdmitted N W [] times).countP (inWin a W) ≤ N := by
  cases times with
  | nil => simp [runAdmitted]
  | cons t ts =>
    have hs' : List.Chain (· ≤ ·) t ts := hs
    have hchain : List.Chain (· ≤ ·) t (t :: ts) := List.chain_cons.mpr ⟨le_refl t, hs'⟩
    have := runAdmitted_bound N W hW (t :: ts) t [] hchain (by simp) (by simp) a
    simpa [prune] using this

/-- The running minimum is bounded by its seed. -/
theorem listMin_le_seed : ∀ (ts : List ℚ) (t : ℚ), listMin t ts ≤ t := by
  intro ts
  induction ts with
  | nil => intro t; exact le_refl t
  | cons y ys ih =>
    intro t
    have hstep : listMin t (y :: ys) = listMin (min t y) ys := rfl
    rw [hstep]
    exact le_trans (ih (min t y)) (min_le_left _ _)

/-- Minimum of a nonempty list is a lower bound. -/
theorem listMin_le : ∀ (ts : List ℚ) (t : ℚ), ∀ x ∈ t :: ts, listMin t ts ≤ x := by
  intro ts
  induction ts with
  | nil =>
    intro t x hx
    have hxt : x = t := by simpa using hx
    rw [hxt]
    exact le_refl t
  | cons y ys ih =>
    intro t x hx
    have hstep : listMin t (y :: ys) = listMin (min t y) ys := rfl
    rw [hstep]
    rcases List.mem_cons.mp hx with h | h
    · rw [h]
      exact le_trans (listMin_le_seed ys (min t y)) (min_le_left _ _)
    · rcases List.mem_cons.mp h with h' | h'
      · rw [h']
        exact le_trans (listMin_le_seed ys (min t y)) (min_le_right _ _)
      · exact ih (min t y) x (List.mem_cons.mpr (Or.inr h'))

/-- Minimum of a nonempty list is attained by a member. -/
theorem listMin_mem : ∀ (ts : List ℚ) (t : ℚ), listMin t ts ∈ t :: ts := by
  intro ts
  induction ts with
  | nil => simp [listMin]
  | cons y ys ih =>
    intro t
    have hstep : listMin t (y :: ys) = listMin (min t y) ys := rfl
    rw [hstep]
    rcases List.mem_cons.mp (ih (min t y)) with h | h
    · rcases min_choice t y with hc | hc
      · rw [h, hc]; exact List.mem_cons_self _ _
      · rw [h, hc]
        exact List.mem_cons.mpr (Or.inr (List.mem_cons_self _ _))
    · exact List.mem_cons.mpr (Or.inr (List.mem_cons.mpr (Or.inr h)))

end RateLimiter

/-- C1: for every client, with parameters `N = maxRequests` and
`W = windowSeconds`: (1) starting from a fresh client, at most `N` calls to
`is_allowed` return true within any rolling half-open interval of length `W`;
(2) a request finding `N` (or more) timestamps still inside the trailing window
is rejected and no timestamp is appended; (3) a request arriving once `W` has
fully elapsed since the oldest admitted request is accepted (when at most `N`
timestamps are stored); (4) admission holds iff fewer than `N` timestamps
remain after pruning; (5) the state is pruned first and the new timestamp is
appended only on admission. -/
theorem rate_limiter_sliding_window (N : ℕ) (W : ℚ) (hW : 0 < W) :
    (∀ times : List ℚ, times.Chain' (· ≤ ·) → ∀ a : ℚ,
        (RateLimiter.runAdmitted N W [] times).countP (RateLimiter.inWin a W) ≤ N)
    ∧ (∀ now s, N ≤ (RateLimiter.prune W now s).length →
        RateLimiter.is_allowed N W now s = (false, RateLimiter.prune W now s))
    ∧ (∀ now s t0, s.length ≤ N → t0 ∈ s → W ≤ now - t0 →
        (RateLimiter.is_allowed N W now s).1 = true)
    ∧ (∀ now s, (RateLimiter.is_allowed N W now s).1 = true
          ↔ (RateLimiter.prune W now s).length < N)
    ∧ (∀ now s, (RateLimiter.is_allowed N W now s).2 =
        if (RateLimiter.prune W now s).length < N
        then RateLimiter.prune W now s ++ [now]
        else RateLimiter.prune W now s) := by
  refine ⟨RateLimiter.runAdmitted_window N W hW, ?_, ?_, ?_, ?_⟩
  · intro now s h
    simp only [RateLimiter.is_allowed]
    rw [if_neg (by omega)]
  · intro now s t0 hlen hmem hold
    have hfail : decide (now - t0 < W) = false := by
      simp only [decide_eq_false_iff_not, not_lt]
      linarith
    have hlt : (RateLimiter.prune W now s).length < s.length :=
      length_filter_lt_of_mem hmem hfail
    simp only [RateLimiter.is_allowed]
    rw [if_pos (by omega)]
  · intro now s
    simp only [RateLimiter.is_allowed]
    by_cases h : (RateLimiter.prune W now s).length < N
    · rw [if_pos h]; simpa using h
    · rw [if_neg h]; simpa using h
  · intro now s
    simp only [RateLimiter.is_allowed]
    by_cases h : (RateLimiter.prune W now s).length < N
    · rw [if_pos h, if_pos h]
    · rw [if_neg h, if_neg h]

/-- Witness for C1 at the default configuration `N = 5`, `W = 3600`:
six monotone calls admit at most five in the window starting at 0, and a call
a full hour after the oldest of five stored timestamps is accepted. -/
theorem rate_limiter_sliding_window_witness :
    ((RateLimiter.runAdmitted 5 3600 [] [0, 1, 2, 3, 4, 5]).countP
        (RateLimiter.inWin 0 3600) ≤ 5)
    ∧ (RateLimiter.is_allowed 5 3600 3600 [0, 1, 2, 3, 4]).1 = true := by
  constructor
  · exact (rate_limiter_sliding_window 5 3600 (by norm_num)).1
      [0, 1, 2, 3, 4, 5]
      (by norm_num [List.chain'_cons, List.chain'_singleton]) 0
  · exact (rate_limiter_sliding_window 5 3600 (by norm_num)).2.2.1
      3600 [0, 1, 2, 3, 4] 0 (by norm_num) (by norm_num) (by norm_num)

/-- C8 counterexample: the claim says `get_reset_time` returns the oldest
timestamp retained within the trailing window plus `windowSeconds`, and "now"
when nothing is retained.  The code returns `0` (not now) on an empty stored
list, and does not prune at all: with stored list `[10]` at `now = 100000`
nothing is retained in the window, the claim's value is `100000`, but the code
returns `3610`. -/
theorem get_reset_time_counterexample :
    RateLimiter.get_reset_time 3600 [] = 0
    ∧ spec_resetAt 3600 1000 [] = 1000
    ∧ (0 : ℚ) ≠ 1000
    ∧ RateLimiter.get_reset_time 3600 [10] = 3610
    ∧ spec_resetAt 3600 100000 [10] = 100000
    ∧ (3610 : ℚ) ≠ 100000 := by
  refine ⟨rfl, ?_, by norm_num, ?_, ?_, by norm_num⟩
  · rfl
  · norm_num [RateLimiter.get_reset_time, RateLimiter.listMin]
  · have h : RateLimiter.prune 3600 100000 [10] = [] := by
      simp [RateLimiter.prune]
      norm_num
    simp [spec_resetAt, h]

/-- C8 amended: `get_reset_time` performs no pruning and is insensitive to the
current time; it returns the minimum of the *stored* timestamp list plus
`windowSeconds` (which can lie in the past once the oldest stored timestamp
has left the window), and returns `0` — not the current time — when the stored
list is empty. -/
theorem get_reset_time_amended (W : ℚ) (l : List ℚ) :
    (l = [] → RateLimiter.get_reset_time W l = 0)
    ∧ (∀ t ∈ l, RateLimiter.get_reset_time W l ≤ t + W)
    ∧ (l ≠ [] → ∃ t ∈ l, RateLimiter.get_reset_time W l = t + W) := by
  refine ⟨?_, ?_, ?_⟩
  · intro h; subst h; rfl
  · intro t ht
    cases l with
    | nil => cases ht
    | cons y ys =>
      have := RateLimiter.listMin_le ys y t ht
      simp only [RateLimiter.get_reset_time]
      linarith
  · intro h
    cases l with
    | nil => exact absurd rfl h
    | cons y ys =>
      exact ⟨RateLimiter.listMin y ys, RateLimiter.listMin_mem ys y, rfl⟩

/-- Witness for C8's amended theorem: on stored list `[5, 2, 9]` the reset
time is bounded by each stored timestamp plus the window and is attained. -/
theorem get_reset_time_amended_witness :
    RateLimiter.get_reset_time 3600 [5, 2, 9] ≤ 5 + 3600
    ∧ ∃ t ∈ ([5, 2, 9] : List ℚ), RateLimiter.get_reset_time 3600 [5, 2, 9] = t + 3600 := by
  constructor
  · exact (get_reset_time_amended 3600 [5, 2, 9]).2.1 5 (by norm_num)
  · exact (get_reset_time_amended 3600 [5, 2, 9]).2.2 (by simp)

namespace SecurityValidator

/-- Closed form of `validate_file`: the flag is a conjunction of the checks,
and the returned handle's position is reset to 0 exactly when validation got
past the extension check. -/
theorem validate_file_eq (mime : List ℕ → Option (List Char)) (f : UploadedFile) :
    validate_file mime f =
      (!f.filename.isEmpty && validate_extension f.filename
        && validate_file_size f.content && validate_mime_type mime f.content
        && validate_content_safety f.content && validate_fbx_structure f.content,
       if f.filename.isEmpty || !validate_extension f.filename then f
       else { f with pos := 0 }) := by
  by_cases h1 : f.filename.isEmpty <;>
    by_cases h2 : validate_extension f.filename <;>
    by_cases h3 : validate_file_size f.content <;>
    by_cases h4 : validate_mime_type mime f.content <;>
    by_cases h5 : validate_content_safety f.content <;>
    by_cases h6 : validate_fbx_structure f.content <;>
    simp [validate_file, h1, h2, h3, h4, h5, h6]

end SecurityValidator

/-- C3 counterexample: the claim says the read position after `validate_file`
equals the position before the call.  For a handle with a valid extension and
starting position 5, the code leaves the position at 0 (it seeks to the start,
reads, and seeks to the start again — it never restores the old position). -/
theorem validate_file_position_counterexample :
    (SecurityValidator.validate_file (fun _ => none)
        ⟨"a.fbx".toList, [0], 5⟩).2.pos = 0
    ∧ (⟨"a.fbx".toList, [0], 5⟩ : SecurityValidator.UploadedFile).pos = 5
    ∧ (0 : ℕ) ≠ 5 := by
  refine ⟨?_, rfl, by omega⟩
  rfl

/-- C3 amended: `validate_file` is deterministic — its boolean result depends
only on the filename and the content bytes, not on the read position — and it
never touches the filename or content; but it is not position-preserving:
whenever validation proceeds past the extension check the position is reset
to 0 (the start), regardless of the starting position, and the handle is
returned unchanged only on the two early-return paths that never inspect
content. -/
theorem validate_file_amended (mime : List ℕ → Option (List Char))
    (f g : SecurityValidator.UploadedFile)
    (hfn : f.filename = g.filename) (hc : f.content = g.content) :
    (SecurityValidator.validate_file mime f).1
        = (SecurityValidator.validate_file mime g).1
    ∧ (SecurityValidator.validate_file mime f).2.filename = f.filename
    ∧ (SecurityValidator.validate_file mime f).2.content = f.content
    ∧ (f.filename.isEmpty = false → SecurityValidator.validate_extension f.filename = true →
        (SecurityValidator.validate_file mime f).2.pos = 0)
    ∧ (f.filename.isEmpty = true ∨ SecurityValidator.validate_extension f.filename = false →
        (SecurityValidator.validate_file mime f).2 = f) := by
  rw [SecurityValidator.validate_file_eq, SecurityValidator.validate_file_eq]
  refine ⟨by rw [hfn, hc], ?_, ?_, ?_, ?_⟩
  · by_cases h : f.filename.isEmpty || !SecurityValidator.validate_extension f.filename <;>
      simp [h]
  · by_cases h : f.filename.isEmpty || !SecurityValidator.validate_extension f.filename <;>
      simp [h]
  · intro h1 h2
    simp [h1, h2]
  · intro h
    rcases h with h | h <;> simp [h]

/-- Witness for C3's amended theorem: two handles with the same name and
bytes but different positions validate identically, and the position comes
back 0 from starting position 7. -/
theorem validate_file_amended_witness :
    (SecurityValidator.validate_file (fun _ => none)
        ⟨"b.fbx".toList, [1, 2], 7⟩).1
      = (SecurityValidator.validate_file (fun _ => none)
        ⟨"b.fbx".toList, [1, 2], 0⟩).1
    ∧ (SecurityValidator.validate_file (fun _ => none)
        ⟨"b.fbx".toList, [1, 2], 7⟩).2.pos = 0 := by
  constructor
  · exact (validate_file_amended (fun _ => none)
      ⟨"b.fbx".toList, [1, 2], 7⟩ ⟨"b.fbx".toList, [1, 2], 0⟩ rfl rfl).1
  · exact (validate_file_amended (fun _ => none)
      ⟨"b.fbx".toList, [1, 2], 7⟩ ⟨"b.fbx".toList, [1, 2], 0⟩ rfl rfl).2.2.2.1
      rfl (by rfl)

/-- C4: if Stage 1 exits cleanly but produces zero intermediate `.smd`
files, `convert_fbx_to_mdl` returns a failure result without running Stage 2
(descriptor generation) or Stage 3 (compilation); and on every exit path —
success, caught stage failure, or copy failure — the scratch temp directory
is removed. -/
theorem convert_zero_smd_and_cleanup (env : FBXProcessor.ConvertEnv) :
    (∀ err, env.blender = .completed 0 err → env.smdFiles = [] →
        (FBXProcessor.convert_fbx_to_mdl env).1.success = false
        ∧ (FBXProcessor.convert_fbx_to_mdl env).1.error
            = some "Blender conversion error: No SMD files were generated"
        ∧ (FBXProcessor.convert_fbx_to_mdl env).2.stage2Ran = false
        ∧ (FBXProcessor.convert_fbx_to_mdl env).2.stage3Ran = false)
    ∧ (FBXProcessor.convert_fbx_to_mdl env).2.tempRemoved = true := by
  constructor
  · intro err hb hs
    simp [FBXProcessor.convert_fbx_to_mdl, FBXProcessor.convert_fbx_to_smd, hb, hs]
  · cases henv : FBXProcessor.convert_fbx_to_smd env with
    | error e => simp [FBXProcessor.convert_fbx_to_mdl, henv]
    | ok smds =>
      cases hc : (FBXProcessor.compile_mdl env.fbxBase env.compile).1 with
      | error e => simp [FBXProcessor.convert_fbx_to_mdl, henv, hc]
      | ok mdls =>
        by_cases hcopy : env.copyOk <;>
          simp [FBXProcessor.convert_fbx_to_mdl, henv, hc, hcopy]

/-- Witness for C4: a run whose Blender stage exits 0 with an empty `.smd`
listing fails with the "No SMD files" error, skips Stages 2 and 3, and the
scratch directory is removed. -/
theorem convert_zero_smd_and_cleanup_witness :
    ((FBXProcessor.convert_fbx_to_mdl
        ⟨.completed 0 "", [], ⟨true, .completed 0 "" "", fun _ => false⟩, true, "model"⟩).1.success = false)
    ∧ ((FBXProcessor.convert_fbx_to_mdl
        ⟨.completed 0 "", [], ⟨true, .completed 0 "" "", fun _ => false⟩, true, "model"⟩).2.stage2Ran = false)
    ∧ ((FBXProcessor.convert_fbx_to_mdl
        ⟨.completed 0 "", [], ⟨true, .completed 0 "" "", fun _ => false⟩, true, "model"⟩).2.tempRemoved = true) := by
  have h := convert_zero_smd_and_cleanup
    ⟨.completed 0 "", [], ⟨true, .completed 0 "" "", fun _ => false⟩, true, "model"⟩
  exact ⟨(h.1 "" rfl rfl).1, (h.1 "" rfl rfl).2.2.1, h.2⟩

/-- C7 counterexample: the claim says a compile-log artifact is written on
every invocation of Stage 3, including timeout and launch failure.  In the
code the log write happens only after `subprocess.run` returns, so a
timed-out compile writes no log (and a launch failure writes none either). -/
theorem compile_log_counterexample :
    (FBXProcessor.compile_mdl "model" ⟨true, .timedOut, fun _ => false⟩).2 = false
    ∧ (FBXProcessor.compile_mdl "model"
        ⟨true, .launchError "wine: not found", fun _ => false⟩).2 = false := by
  exact ⟨rfl, rfl⟩

/-- C7 amended: the compile log is written exactly when `studiomdl.exe`
exists and the compiler process runs to completion — in particular it is
written on non-zero exit and on a missing-output failure, but not on
timeout, launch failure, or a missing compiler binary. -/
theorem compile_log_amended (qcBase : String) (env : FBXProcessor.CompileEnv) :
    (FBXProcessor.compile_mdl qcBase env).2 = true
      ↔ (env.studiomdlExists = true
          ∧ ∃ rc out err, env.run = .completed rc out err) := by
  cases hs : env.studiomdlExists with
  | false => simp [FBXProcessor.compile_mdl, hs]
  | true =>
    cases hr : env.run with
    | timedOut => simp [FBXProcessor.compile_mdl, hs, hr]
    | launchError m => simp [FBXProcessor.compile_mdl, hs, hr]
    | completed rc out err =>
      by_cases hrc : rc ≠ 0
      · simp [FBXProcessor.compile_mdl, hs, hr, hrc]
      · by_cases hmdl : (((FBXProcessor.possible_extensions.map (fun e => qcBase ++ e)).filter
            env.fsExists ++ ["compile.log"]).any (fun f => strEndsWith f ".mdl")) <;>
          simp [FBXProcessor.compile_mdl, hs, hr, hrc, hmdl]

namespace FBXProcessor

theorem isPrefixOf_self_append {α : Type} [BEq α] [LawfulBEq α] :
    ∀ (l r : List α), l.isPrefixOf (l ++ r) = true := by
  intro l r
  induction l with
  | nil => simp [List.isPrefixOf]
  | cons x xs ih => simp [List.isPrefixOf, ih]

theorem infixOfB_append_left {α : Type} [BEq α] (p r : List α)
    (h : infixOfB p r = true) : ∀ l : List α, infixOfB p (l ++ r) = true := by
  intro l
  induction l with
  | nil => simpa using h
  | cons c cs ih =>
    show (p.isPrefixOf (c :: (cs ++ r)) || infixOfB p (cs ++ r)) = true
    rw [ih]
    exact Bool.or_true _

/-- A pattern that is a prefix of neither `a` nor (after any split) `w`
is not a prefix of `a ++ w`. -/
theorem isPrefixOf_append_false : ∀ (p a w : List Char),
    p.isPrefixOf a = false →
    (∀ k, k < p.length → (p.drop k).isPrefixOf w = false) →
    p.isPrefixOf (a ++ w) = false := by
  intro p
  induction p with
  | nil =>
    intro a w h _
    simp [List.isPrefixOf] at h
  | cons x xs ih =>
    intro a w h h2
    cases a with
    | nil =>
      have := h2 0 (Nat.succ_pos _)
      simpa using this
    | cons b bs =>
      cases hxb : (x == b) with
      | false => simp [List.isPrefixOf, hxb]
      | true =>
        have h' : xs.isPrefixOf bs = false := by
          simpa [List.isPrefixOf, hxb] using h
        have h2' : ∀ k, k < xs.length → (xs.drop k).isPrefixOf w = false := by
          intro k hk
          have := h2 (k + 1) (by simpa using Nat.succ_lt_succ hk)
          simpa using this
        simp [List.isPrefixOf, hxb, ih bs w h' h2']

/-- No nonempty tail of `"_ref"` starts the string `"_walk.smd"`. -/
theorem refPat_drop_walk :
    ∀ k, k < refPat.length → (refPat.drop k).isPrefixOf "_walk.smd".toList = false := by
  intro k hk
  have hk' : k < 4 := hk
  interval_cases k <;> decide

/-- The `"_ref"` marker cannot appear in `base ++ "_walk.smd"` when it does
not appear in `base`: it is not in `"_walk.smd"` and cannot straddle the
boundary. -/
theorem not_infix_append_walk (base : List Char)
    (h : infixOfB refPat base = false) :
    infixOfB refPat (base ++ "_walk.smd".toList) = false := by
  induction base with
  | nil => decide
  | cons c bs ih =>
    have h' : (refPat.isPrefixOf (c :: bs) || infixOfB refPat bs) = false := h
    have h1 := (Bool.or_eq_false_iff.mp h').1
    have h2 := (Bool.or_eq_false_iff.mp h').2
    show (refPat.isPrefixOf (c :: (bs ++ "_walk.smd".toList))
        || infixOfB refPat (bs ++ "_walk.smd".toList)) = false
    rw [Bool.or_eq_false_iff]
    exact ⟨isPrefixOf_append_false refPat (c :: bs) _ h1 refPat_drop_walk, ih h2⟩

theorem endsWith_refsmd_walk (base : List Char) :
    endsWithB "_ref.smd".toList (base ++ "_walk.smd".toList) = false := by
  unfold endsWithB
  rw [List.reverse_append]
  rfl

theorem isRefName_ref_suffix (base : List Char) :
    isRefName (base ++ "_ref.smd".toList) = true := by
  unfold isRefName
  rw [infixOfB_append_left refPat "_ref.smd".toList (by decide) base]
  rfl

theorem isRefName_walk (base : List Char) (h : infixOfB refPat base = false) :
    isRefName (base ++ "_walk.smd".toList) = false := by
  unfold isRefName
  rw [not_infix_append_walk base h, endsWith_refsmd_walk base]
  rfl

theorem splitext_eq_of_break (cs extRev baseRev : List Char)
    (h : breakAtDotRev cs.reverse = some (extRev, baseRev))
    (h2 : baseRev.reverse.all (fun c => c == '.') = false) :
    splitext cs = (baseRev.reverse, '.' :: extRev.reverse) := by
  unfold splitext
  rw [h]
  show (if baseRev.reverse.all (fun c => c == '.') then (cs, [])
      else (baseRev.reverse, '.' :: extRev.reverse)) = _
  rw [h2]
  simp

theorem splitext_append_walk (base : List Char) :
    splitext (base ++ "_walk.smd".toList) = (base ++ "_walk".toList, ".smd".toList) := by
  have hb : breakAtDotRev (base ++ "_walk.smd".toList).reverse
      = some (['d', 'm', 's'], ['k', 'l', 'a', 'w', '_'] ++ base.reverse) := by
    rw [List.reverse_append]
    rfl
  have hrev : (['k', 'l', 'a', 'w', '_'] ++ base.reverse).reverse
      = base ++ "_walk".toList := by
    rw [List.reverse_append, List.reverse_reverse]
    rfl
  have hall : ((['k', 'l', 'a', 'w', '_'] ++ base.reverse).reverse).all
      (fun c => c == '.') = false := by
    rw [hrev]
    have hw : ("_walk".toList.all (fun c => c == '.')) = false := rfl
    rw [List.all_append, hw, Bool.and_false]
  have := splitext_eq_of_break (base ++ "_walk.smd".toList)
    ['d', 'm', 's'] (['k', 'l', 'a', 'w', '_'] ++ base.reverse) hb hall
  rw [hrev] at this
  exact this

theorem stripSeqName_walk (base : List Char) :
    stripSeqName base (base ++ "_walk.smd".toList) = "walk".toList := by
  have hsplit : base ++ "_walk".toList = (base ++ ['_']) ++ "walk".toList := by
    rw [List.append_assoc]
    rfl
  have hpre : (base ++ ['_']).isPrefixOf (base ++ "_walk".toList) = true := by
    rw [hsplit]
    exact isPrefixOf_self_append _ _
  show (if (base ++ ['_']).isPrefixOf ((splitext (base ++ "_walk.smd".toList)).1)
      then ((splitext (base ++ "_walk.smd".toList)).1).drop (base.length + 1)
      else (splitext (base ++ "_walk.smd".toList)).1) = "walk".toList
  rw [splitext_append_walk]
  show (if (base ++ ['_']).isPrefixOf (base ++ "_walk".toList)
      then (base ++ "_walk".toList).drop (base.length + 1)
      else base ++ "_walk".toList) = "walk".toList
  rw [hpre, if_pos rfl, hsplit]
  have hlen : base.length + 1 = (base ++ ['_']).length := by simp
  rw [hlen, List.drop_left]

theorem classifyAux_cons_true (r : Option (List Char)) (acc : List (List Char))
    (f : List Char) (fs : List (List Char)) (h : isRefName f = true) :
    classifyAux r acc (f :: fs) = classifyAux (some f) acc fs := by
  show (if isRefName f then classifyAux (some f) acc fs
      else classifyAux r (acc ++ [f]) fs) = _
  rw [h]
  rfl

theorem classifyAux_cons_false (r : Option (List Char)) (acc : List (List Char))
    (f : List Char) (fs : List (List Char)) (h : isRefName f = false) :
    classifyAux r acc (f :: fs) = classifyAux r (acc ++ [f]) fs := by
  show (if isRefName f then classifyAux (some f) acc fs
      else classifyAux r (acc ++ [f]) fs) = _
  rw [h]
  rfl

theorem classifyAux_no_ref :
    ∀ (smds : List (List Char)) (r : Option (List Char)) (acc : List (List Char)),
      (∀ f ∈ smds, isRefName f = false) →
      classifyAux r acc smds = (r, acc ++ smds) := by
  intro smds
  induction smds with
  | nil =>
    intro r acc _
    simp [classifyAux]
  | cons f fs ih =>
    intro r acc h
    rw [classifyAux_cons_false r acc f fs (h f (List.mem_cons_self _ _))]
    rw [ih r (acc ++ [f]) (fun g hg => h g (List.mem_cons.mpr (Or.inr hg)))]
    simp

theorem selectRef_no_ref (smds : List (List Char))
    (h : ∀ f ∈ smds, isRefName f = false) :
    selectRef smds = smds.head? := by
  unfold selectRef classify
  rw [classifyAux_no_ref smds none [] h]

end FBXProcessor

/-- C5 counterexample: the claim asserts, for files `{base}_ref.smd` and
`{base}_walk.smd`, a `$body` entry referencing `{base}_ref.smd` and a
`$sequence` named `walk`, with reference selection by suffix match.  The
code matches the substring `"_ref"` anywhere (last match wins), so with
`base = "x_ref"` the walk file `x_ref_walk.smd` is classified as the
reference: the `$body` entry references `x_ref_walk.smd`, and the only
sequence is a default `idle` — not `walk`. -/
theorem generate_qc_counterexample :
    FBXProcessor.bodyEntries (FBXProcessor.generate_qc_file "x_ref".toList
        ["x_ref_ref.smd".toList, "x_ref_walk.smd".toList] "1.0".toList "default".toList)
      = ["$body \"default\" \"x_ref_walk.smd\"\n\n".toList]
    ∧ ["$body \"default\" \"x_ref_walk.smd\"\n\n".toList]
      ≠ ["$body \"default\" \"x_ref_ref.smd\"\n\n".toList]
    ∧ FBXProcessor.seqEntries (FBXProcessor.generate_qc_file "x_ref".toList
        ["x_ref_ref.smd".toList, "x_ref_walk.smd".toList] "1.0".toList "default".toList)
      = ["$sequence \"idle\" \"x_ref_walk.smd\" fps 30\n".toList] := by
  refine ⟨rfl, by decide, rfl⟩

/-- C5 amended: provided the base name itself does not contain the marker
`"_ref"` (reference selection is by *substring* match, last match winning,
not by suffix match): for files `{base}_ref.smd` and `{base}_walk.smd` the
descriptor declares exactly one `$body` entry referencing `{base}_ref.smd`
and exactly one `$sequence`, named `walk` (prefix stripped), referencing
`{base}_walk.smd`; for `{base}_ref.smd` alone it declares a default
`$sequence` named `idle` referencing that file; and when no file matches the
marker the first intermediate file is used as reference. -/
theorem generate_qc_amended (base scale bg : List Char)
    (hbase : FbxService.infixOfB FBXProcessor.refPat base = false) :
    (FBXProcessor.bodyEntries (FBXProcessor.generate_qc_file base
        [base ++ "_ref.smd".toList, base ++ "_walk.smd".toList] scale bg)
      = ["$body \"".toList ++ bg ++ "\" \"".toList
          ++ (base ++ "_ref.smd".toList) ++ "\"\n\n".toList])
    ∧ (FBXProcessor.seqEntries (FBXProcessor.generate_qc_file base
        [base ++ "_ref.smd".toList, base ++ "_walk.smd".toList] scale bg)
      = [FBXProcessor.seqLine "walk".toList (base ++ "_walk.smd".toList)])
    ∧ (FBXProcessor.bodyEntries (FBXProcessor.generate_qc_file base
        [base ++ "_ref.smd".toList] scale bg)
      = ["$body \"".toList ++ bg ++ "\" \"".toList
          ++ (base ++ "_ref.smd".toList) ++ "\"\n\n".toList])
    ∧ (FBXProcessor.seqEntries (FBXProcessor.generate_qc_file base
        [base ++ "_ref.smd".toList] scale bg)
      = ["$sequence \"idle\" \"".toList ++ (base ++ "_ref.smd".toList)
          ++ "\" fps 30\n".toList])
    ∧ (∀ smds, (∀ f ∈ smds, FBXProcessor.isRefName f = false) →
        FBXProcessor.selectRef smds = smds.head?) := by
  have hf1 : FBXProcessor.isRefName (base ++ "_ref.smd".toList) = true :=
    FBXProcessor.isRefName_ref_suffix base
  have hf2 : FBXProcessor.isRefName (base ++ "_walk.smd".toList) = false :=
    FBXProcessor.isRefName_walk base hbase
  have hcl2 : FBXProcessor.classify
      [base ++ "_ref.smd".toList, base ++ "_walk.smd".toList]
      = (some (base ++ "_ref.smd".toList), [base ++ "_walk.smd".toList]) := by
    show FBXProcessor.classifyAux none []
        [base ++ "_ref.smd".toList, base ++ "_walk.smd".toList] = _
    rw [FBXProcessor.classifyAux_cons_true _ _ _ _ hf1,
      FBXProcessor.classifyAux_cons_false _ _ _ _ hf2]
    rfl
  have hcl1 : FBXProcessor.classify [base ++ "_ref.smd".toList]
      = (some (base ++ "_ref.smd".toList), []) := by
    show FBXProcessor.classifyAux none [] [base ++ "_ref.smd".toList] = _
    rw [FBXProcessor.classifyAux_cons_true _ _ _ _ hf1]
    rfl
  have hsel2 : FBXProcessor.selectRef
      [base ++ "_ref.smd".toList, base ++ "_walk.smd".toList]
      = some (base ++ "_ref.smd".toList) := by
    unfold FBXProcessor.selectRef
    rw [hcl2]
  have hsel1 : FBXProcessor.selectRef [base ++ "_ref.smd".toList]
      = some (base ++ "_ref.smd".toList) := by
    unfold FBXProcessor.selectRef
    rw [hcl1]
  refine ⟨?_, ?_, ?_, ?_, FBXProcessor.selectRef_no_ref⟩
  · simp only [FBXProcessor.generate_qc_file, hsel2, hcl2]
    rfl
  · simp only [FBXProcessor.generate_qc_file, hsel2, hcl2, List.map_cons, List.map_nil]
    rw [FBXProcessor.stripSeqName_walk base]
    rfl
  · simp only [FBXProcessor.generate_qc_file, hsel1, hcl1]
    rfl
  · simp only [FBXProcessor.generate_qc_file, hsel1, hcl1]
    rfl

/-- Witness for C5's amended theorem at `base = "model"`. -/
theorem generate_qc_amended_witness :
    FBXProcessor.seqEntries (FBXProcessor.generate_qc_file "model".toList
        ["model_ref.smd".toList, "model_walk.smd".toList] "1.0".toList "default".toList)
      = [FBXProcessor.seqLine "walk".toList "model_walk.smd".toList] := by
  exact (generate_qc_amended "model".toList "1.0".toList "default".toList (by decide)).2.1

namespace App

/-- A key filtered out of an association list cannot be looked up. -/
theorem lookup_cleanup_job (jobs : List (String × JobRec)) (jid : String) :
    List.lookup jid (cleanup_job jid jobs) = none := by
  induction jobs with
  | nil => rfl
  | cons p t ih =>
    obtain ⟨k, v⟩ := p
    cases hp : (k == jid) with
    | true =>
      simp only [cleanup_job, List.filter_cons, hp, Bool.not_true]
      exact ih
    | false =>
      have hne : (jid == k) = false := by
        cases hq : (jid == k) with
        | false => rfl
        | true =>
          have hk : k = jid := (eq_of_beq hq).symm
          rw [hk, beq_self_eq_true] at hp
          exact Bool.noConfusion hp
      simp only [cleanup_job, List.filter_cons, hp, Bool.not_false, if_true]
      rw [List.lookup_cons, hne]
      exact ih

/-- Lookup misses when the key does not occur. -/
theorem lookup_eq_none_of_not_mem_keys (jid : String) :
    ∀ (t : List (String × JobRec)), jid ∉ t.map Prod.fst →
      List.lookup jid t = none := by
  intro t
  induction t with
  | nil => intro _; rfl
  | cons p rest ih =>
    obtain ⟨k, v⟩ := p
    intro h
    have h1 : jid ≠ k := by
      intro he
      exact h (by rw [he]; exact List.mem_cons_self _ _)
    have hne : (jid == k) = false := by
      cases hq : (jid == k) with
      | false => rfl
      | true => exact absurd (eq_of_beq hq) h1
    rw [List.lookup_cons, hne]
    exact ih (fun hm => h (List.mem_cons.mpr (Or.inr hm)))

/-- After a sweep at time `now`, a job older than the retention window is
gone (registry keys assumed distinct, as `uuid4` ids are). -/
theorem lookup_sweep_none (now : ℚ) (jid : String) (j : JobRec) :
    ∀ (jobs : List (String × JobRec)),
      (jobs.map Prod.fst).Nodup →
      List.lookup jid jobs = some j →
      3600 < now - j.created →
      List.lookup jid (cleanup_old_jobs_step now jobs) = none := by
  intro jobs
  induction jobs with
  | nil => intro _ hj _; cases hj
  | cons p t ih =>
    obtain ⟨k, v⟩ := p
    intro hnd hj hold
    have hnd' : (t.map Prod.fst).Nodup := (List.nodup_cons.mp hnd).2
    have hhead : k ∉ t.map Prod.fst := by
      have := (List.nodup_cons.mp hnd).1
      simpa using this
    cases hq : (jid == k) with
    | true =>
      have hjid : jid = k := eq_of_beq hq
      have hpj : v = j := by
        rw [List.lookup_cons, hq] at hj
        exact Option.some.inj hj
      have hdrop : (!(decide (3600 < now - v.created))) = false := by
        rw [hpj]
        simp [hold]
      simp only [cleanup_old_jobs_step, List.filter_cons, hdrop,
        Bool.false_eq_true, if_false]
      have hnomem : jid ∉
          (t.filter (fun q => !(decide (3600 < now - q.2.created)))).map Prod.fst := by
        intro hm
        rcases List.mem_map.mp hm with ⟨q, hqmem, hqfst⟩
        have hqt : q ∈ t := List.mem_of_mem_filter hqmem
        exact hhead (List.mem_map.mpr ⟨q, hqt, by rw [hqfst, ← hjid]⟩)
      exact lookup_eq_none_of_not_mem_keys jid _ hnomem
    | false =>
      have hj' : List.lookup jid t = some j := by
        rw [List.lookup_cons, hq] at hj
        exact hj
      have hrest : List.lookup jid (cleanup_old_jobs_step now t) = none :=
        ih hnd' hj' hold
      simp only [cleanup_old_jobs_step, List.filter_cons]
      cases hk : (!(decide (3600 < now - v.created))) with
      | false =>
        simp only [Bool.false_eq_true, if_false]
        exact hrest
      | true =>
        simp only [hk, if_true]
        rw [List.lookup_cons, hq]
        exact hrest

/-- `is_allowed`, written as a single conditional. -/
theorem is_allowed_eq (N : ℕ) (W now : ℚ) (l : List ℚ) :
    RateLimiter.is_allowed N W now l
      = if (RateLimiter.prune W now l).length < N
        then (true, RateLimiter.prune W now l ++ [now])
        else (false, RateLimiter.prune W now l) := rfl

/-- A failed conversion always carries an error message. -/
theorem convert_error_on_failure (cenv : FBXProcessor.ConvertEnv) :
    (FBXProcessor.convert_fbx_to_mdl cenv).1.success = false →
    (FBXProcessor.convert_fbx_to_mdl cenv).1.error ≠ none := by
  cases hs : FBXProcessor.convert_fbx_to_smd cenv with
  | error e => simp [FBXProcessor.convert_fbx_to_mdl, hs]
  | ok smds =>
    cases hc : (FBXProcessor.compile_mdl cenv.fbxBase cenv.compile).1 with
    | error e => simp [FBXProcessor.convert_fbx_to_mdl, hs, hc]
    | ok mdls =>
      by_cases hcopy : cenv.copyOk <;>
        simp [FBXProcessor.convert_fbx_to_mdl, hs, hc, hcopy]

/-- The worker always leaves the job in a terminal status, and a failed job
always carries an error message. -/
theorem process_fbx_job_terminal (cenv : FBXProcessor.ConvertEnv) (od zf : Bool) :
    ((process_fbx_job cenv od zf).finalStatus = "completed"
      ∨ (process_fbx_job cenv od zf).finalStatus = "failed")
    ∧ ((process_fbx_job cenv od zf).finalStatus = "failed" →
        (process_fbx_job cenv od zf).error ≠ none) := by
  cases od with
  | false => exact ⟨Or.inr rfl, fun _ => by simp [process_fbx_job]⟩
  | true =>
    cases hsu : (FBXProcessor.convert_fbx_to_mdl cenv).1.success with
    | true =>
      cases zf with
      | true =>
        have hp : process_fbx_job cenv true true
            = ⟨0 :: ((FBXProcessor.convert_fbx_to_mdl cenv).2.reports.map Prod.fst)
                ++ [100], "completed", none⟩ := by
          simp [process_fbx_job, hsu]
        rw [hp]
        exact ⟨Or.inl rfl,
          fun h => absurd h (show ¬("completed" : String) = "failed" by decide)⟩
      | false =>
        have hp : process_fbx_job cenv true false
            = ⟨0 :: ((FBXProcessor.convert_fbx_to_mdl cenv).2.reports.map Prod.fst),
               "failed", some "zip creation failed"⟩ := by
          simp [process_fbx_job, hsu]
        rw [hp]
        exact ⟨Or.inr rfl, fun _ => by simp⟩
    | false =>
      have hp : process_fbx_job cenv true zf
          = ⟨0 :: ((FBXProcessor.convert_fbx_to_mdl cenv).2.reports.map Prod.fst),
             "failed", (FBXProcessor.convert_fbx_to_mdl cenv).1.error⟩ := by
        simp [process_fbx_job, hsu]
      rw [hp]
      exact ⟨Or.inr rfl, fun _ => convert_error_on_failure cenv hsu⟩

/-- After appending a fresh key, lookup still skips the old entries. -/
theorem lookup_append_of_none (jid : String) :
    ∀ (l₁ l₂ : List (String × JobRec)), List.lookup jid l₁ = none →
      List.lookup jid (l₁ ++ l₂) = List.lookup jid l₂ := by
  intro l₁
  induction l₁ with
  | nil => intro l₂ _; rfl
  | cons p t ih =>
    obtain ⟨k, v⟩ := p
    intro l₂ h
    rw [List.lookup_cons] at h
    cases hq : (jid == k) with
    | true =>
      rw [hq] at h
      exact Option.noConfusion h
    | false =>
      rw [hq] at h
      show List.lookup jid ((k, v) :: (t ++ l₂)) = List.lookup jid l₂
      rw [List.lookup_cons, hq]
      exact ih l₂ h

end App

/-- C2 counterexample: the claim says no job whose final status is `failed`
ever has progress 100.  When the pipeline succeeds (progress has reached the
final checkpoint 100 inside `convert_fbx_to_mdl`) and `create_result_zip`
then raises, the catch-all handler marks the job `failed` while its progress
is already 100. -/
theorem progress_100_failed_counterexample :
    (App.process_fbx_job
        ⟨.completed 0 "", ["model_ref.smd"],
         ⟨true, .completed 0 "" "", fun _ => true⟩, true, "model"⟩ true false).finalStatus
      = "failed"
    ∧ 100 ∈ (App.process_fbx_job
        ⟨.completed 0 "", ["model_ref.smd"],
         ⟨true, .completed 0 "" "", fun _ => true⟩, true, "model"⟩ true false).history
    ∧ ("failed" : String) ≠ "completed" := by
  refine ⟨rfl, by decide, by decide⟩

/-- C2 amended: a job's progress history is non-decreasing, with the
checkpoints reported in order; a completed job ends at exactly 100; progress
reaches 100 exactly when the conversion pipeline succeeds; and the status
becomes `completed` exactly when the pipeline succeeds *and* the subsequent
ZIP packaging does not raise — so a job can end `failed` with progress 100
when packaging fails after a successful pipeline. -/
theorem process_progress_amended (cenv : FBXProcessor.ConvertEnv) (od zf : Bool) :
    (App.process_fbx_job cenv od zf).history.Chain' (· ≤ ·)
    ∧ ((App.process_fbx_job cenv od zf).finalStatus = "completed" →
        (App.process_fbx_job cenv od zf).history.getLast? = some 100)
    ∧ (100 ∈ (App.process_fbx_job cenv od zf).history
        ↔ od = true ∧ (FBXProcessor.convert_fbx_to_mdl cenv).1.success = true)
    ∧ ((App.process_fbx_job cenv od zf).finalStatus = "completed"
        ↔ od = true ∧ (FBXProcessor.convert_fbx_to_mdl cenv).1.success = true
            ∧ zf = true) := by
  cases od with
  | false =>
    have hp : App.process_fbx_job cenv false zf = ⟨[0], "failed", some "makedirs failed"⟩ := rfl
    rw [hp]
    refine ⟨by simp, fun h => absurd h (show ¬("failed" : String) = "completed" by decide),
      ?_, ?_⟩
    · constructor
      · intro h; exact absurd h (by decide)
      · rintro ⟨hod, -⟩; exact Bool.noConfusion hod
    · constructor
      · intro h; exact absurd h (show ("failed" : String) = "completed" → False by decide)
      · rintro ⟨hod, -⟩; exact Bool.noConfusion hod
  | true =>
    cases hs : FBXProcessor.convert_fbx_to_smd cenv with
    | error e =>
      have hcv : FBXProcessor.convert_fbx_to_mdl cenv
          = (⟨false, some e, []⟩,
             ⟨[(10, "Converting FBX to SMD using Blender...")], false, false, true⟩) := by
        simp [FBXProcessor.convert_fbx_to_mdl, hs]
      have hp : App.process_fbx_job cenv true zf = ⟨[0, 10], "failed", some e⟩ := by
        simp [App.process_fbx_job, hcv]
      rw [hp, hcv]
      refine ⟨?_, fun h => absurd h (show ¬("failed" : String) = "completed" by decide),
        ?_, ?_⟩
      · norm_num [List.chain'_cons, List.chain'_singleton]
      · constructor
        · intro h; exact absurd h (show ¬(100 ∈ ([0, 10] : List ℕ)) by decide)
        · rintro ⟨-, hfalse⟩; exact Bool.noConfusion hfalse
      · constructor
        · intro h; exact absurd h (show ¬("failed" : String) = "completed" by decide)
        · rintro ⟨-, hfalse, -⟩; exact Bool.noConfusion hfalse
    | ok smds =>
      cases hc : (FBXProcessor.compile_mdl cenv.fbxBase cenv.compile).1 with
      | error e =>
        have hcv : FBXProcessor.convert_fbx_to_mdl cenv
            = (⟨false, some e, []⟩,
               ⟨[(10, "Converting FBX to SMD using Blender..."),
                 (40, "Generating QC file..."),
                 (60, "Compiling MDL file...")], true, true, true⟩) := by
          simp [FBXProcessor.convert_fbx_to_mdl, hs, hc]
        have hp : App.process_fbx_job cenv true zf = ⟨[0, 10, 40, 60], "failed", some e⟩ := by
          simp [App.process_fbx_job, hcv]
        rw [hp, hcv]
        refine ⟨?_, fun h => absurd h (show ¬("failed" : String) = "completed" by decide),
          ?_, ?_⟩
        · norm_num [List.chain'_cons, List.chain'_singleton]
        · constructor
          · intro h; exact absurd h (show ¬(100 ∈ ([0, 10, 40, 60] : List ℕ)) by decide)
          · rintro ⟨-, hfalse⟩; exact Bool.noConfusion hfalse
        · constructor
          · intro h; exact absurd h (show ¬("failed" : String) = "completed" by decide)
          · rintro ⟨-, hfalse, -⟩; exact Bool.noConfusion hfalse
      | ok mdls =>
        by_cases hcopy : cenv.copyOk
        · have hcv : FBXProcessor.convert_fbx_to_mdl cenv
              = (⟨true, none, smds ++ [cenv.fbxBase ++ ".qc"] ++ mdls⟩,
                 ⟨[(10, "Converting FBX to SMD using Blender..."),
                   (40, "Generating QC file..."),
                   (60, "Compiling MDL file..."),
                   (90, "Copying results..."),
                   (100, "Conversion completed!")], true, true, true⟩) := by
            simp [FBXProcessor.convert_fbx_to_mdl, hs, hc, hcopy]
          cases zf with
          | true =>
            have hp : App.process_fbx_job cenv true true
                = ⟨[0, 10, 40, 60, 90, 100, 100], "completed", none⟩ := by
              simp [App.process_fbx_job, hcv]
            rw [hp, hcv]
            refine ⟨?_, fun _ => by decide,
              ⟨fun _ => ⟨rfl, rfl⟩, fun _ => by decide⟩,
              ⟨fun _ => ⟨rfl, rfl, rfl⟩, fun _ => rfl⟩⟩
            norm_num [List.chain'_cons, List.chain'_singleton]
          | false =>
            have hp : App.process_fbx_job cenv true false
                = ⟨[0, 10, 40, 60, 90, 100], "failed", some "zip creation failed"⟩ := by
              simp [App.process_fbx_job, hcv]
            rw [hp, hcv]
            refine ⟨?_, fun h => absurd h (show ¬("failed" : String) = "completed" by decide),
              ⟨fun _ => ⟨rfl, rfl⟩, fun _ => by decide⟩, ?_⟩
            · norm_num [List.chain'_cons, List.chain'_singleton]
            · constructor
              · intro h
                exact absurd h (show ¬("failed" : String) = "completed" by decide)
              · rintro ⟨-, -, hz⟩; exact Bool.noConfusion hz
        · have hcv : FBXProcessor.convert_fbx_to_mdl cenv
              = (⟨false, some "copy failed", []⟩,
                 ⟨[(10, "Converting FBX to SMD using Blender..."),
                   (40, "Generating QC file..."),
                   (60, "Compiling MDL file..."),
                   (90, "Copying results...")], true, true, true⟩) := by
            simp [FBXProcessor.convert_fbx_to_mdl, hs, hc, hcopy]
          have hp : App.process_fbx_job cenv true zf
              = ⟨[0, 10, 40, 60, 90], "failed", some "copy failed"⟩ := by
            simp [App.process_fbx_job, hcv]
          rw [hp, hcv]
          refine ⟨?_, fun h => absurd h (show ¬("failed" : String) = "completed" by decide),
            ?_, ?_⟩
          · norm_num [List.chain'_cons, List.chain'_singleton]
          · constructor
            · intro h
              exact absurd h (show ¬(100 ∈ ([0, 10, 40, 60, 90] : List ℕ)) by decide)
            · rintro ⟨-, hfalse⟩; exact Bool.noConfusion hfalse
          · constructor
            · intro h; exact absurd h (show ¬("failed" : String) = "completed" by decide)
            · rintro ⟨-, hfalse, -⟩; exact Bool.noConfusion hfalse

/-- Witness for C2's amended theorem: a fully successful run ends completed
with final progress 100, and its history reaches 100. -/
theorem process_progress_amended_witness :
    (App.process_fbx_job
        ⟨.completed 0 "", ["model_ref.smd"],
         ⟨true, .completed 0 "" "", fun _ => true⟩, true, "model"⟩ true true).history.getLast?
      = some 100
    ∧ 100 ∈ (App.process_fbx_job
        ⟨.completed 0 "", ["model_ref.smd"],
         ⟨true, .completed 0 "" "", fun _ => true⟩, true, "model"⟩ true true).history := by
  refine ⟨?_, ?_⟩
  · exact (process_progress_amended
      ⟨.completed 0 "", ["model_ref.smd"],
       ⟨true, .completed 0 "" "", fun _ => true⟩, true, "model"⟩ true true).2.1 rfl
  · exact (process_progress_amended
      ⟨.completed 0 "", ["model_ref.smd"],
       ⟨true, .completed 0 "" "", fun _ => true⟩, true, "model"⟩ true true).2.2.1.mpr
      ⟨rfl, rfl⟩

/-- C6 counterexample: the claim says any status query more than an hour
after creation returns NotFound, even for a still-processing job.  The lazy
eviction in `get_job_status` applies only to terminal jobs: a `processing`
job created at time 0 queried at time 4000 (> 3600 seconds later, with no
sweep having run) is still returned. -/
theorem processing_job_ttl_counterexample :
    (App.get_job_status 4000 [("j", ⟨"processing", 10, none, false, 0⟩)] "j").1
      = App.StatusResp.ok "processing" 10 none false
    ∧ (App.get_job_status 4000 [("j", ⟨"processing", 10, none, false, 0⟩)] "j").1
        ≠ App.StatusResp.notFound
    ∧ (App.get_job_status 4000 [("j", ⟨"processing", 10, none, false, 0⟩)] "j").1
        ≠ App.StatusResp.expired
    ∧ (3600 : ℚ) < 4000 - 0 := by
  refine ⟨rfl, by decide, by decide, by norm_num⟩

/-- C6 amended: a status query more than the retention window after creation
returns NotFound when the job is terminal (lazy eviction on read, which also
removes the record), or when the 5-minute background sweep has run since the
job's age exceeded the window (the sweep evicts regardless of status); but a
still-`processing` job past the window remains visible to queries until such
a sweep runs. -/
theorem job_query_ttl_amended (now : ℚ) (jobs : List (String × App.JobRec))
    (jid : String) (j : App.JobRec)
    (hj : List.lookup jid jobs = some j) :
    ((j.status = "completed" ∨ j.status = "failed") → j.created < now - 3600 →
        (App.get_job_status now jobs jid).1 = App.StatusResp.expired
        ∧ List.lookup jid (App.get_job_status now jobs jid).2 = none)
    ∧ ((jobs.map Prod.fst).Nodup → 3600 < now - j.created →
        List.lookup jid (App.cleanup_old_jobs_step now jobs) = none
        ∧ (App.get_job_status now (App.cleanup_old_jobs_step now jobs) jid).1
            = App.StatusResp.notFound)
    ∧ (¬((j.status = "completed" ∨ j.status = "failed") ∧ j.created < now - 3600) →
        (App.get_job_status now jobs jid).1
          = App.StatusResp.ok j.status j.progress j.errorMessage j.hasResult) := by
  refine ⟨?_, ?_, ?_⟩
  · intro hterm hold
    have heq : App.get_job_status now jobs jid
        = (App.StatusResp.expired, App.cleanup_job jid jobs) := by
      simp only [App.get_job_status, hj]
      rw [if_pos ⟨hterm, hold⟩]
    rw [heq]
    exact ⟨rfl, App.lookup_cleanup_job jobs jid⟩
  · intro hnd hold
    have hnone := App.lookup_sweep_none now jid j jobs hnd hj hold
    refine ⟨hnone, ?_⟩
    simp only [App.get_job_status, hnone]
  · intro hnot
    simp only [App.get_job_status, hj]
    rw [if_neg hnot]

/-- Witness for C6's amended theorem: an hour-old completed job is lazily
evicted by the read, and the sweep removes an hour-old job. -/
theorem job_query_ttl_amended_witness :
    (App.get_job_status 4000 [("j", ⟨"completed", 100, none, true, 0⟩)] "j").1
      = App.StatusResp.expired
    ∧ List.lookup "j" (App.cleanup_old_jobs_step 4000
        [("j", (⟨"completed", 100, none, true, 0⟩ : App.JobRec))]) = none := by
  have h := job_query_ttl_amended 4000 [("j", ⟨"completed", 100, none, true, 0⟩)]
    "j" ⟨"completed", 100, none, true, 0⟩ rfl
  exact ⟨(h.1 (Or.inl rfl) (by norm_num)).1, (h.2.1 (by simp) (by norm_num)).1⟩

/-- C9 counterexample: the claim says an internal fault in the upload
handler after the job record is created still leaves the job marked failed.
When `file.save` raises, the handler's catch-all returns a 500 but never
touches the job: the record stays `queued` forever (it is never marked
failed). -/
theorem upload_fault_counterexample :
    (App.upload_file 5 3600 ⟨0, true, "a.fbx", true, some 1, false⟩ [] [] "j").1
      = App.UploadResp.serverError
    ∧ List.lookup "j"
        (App.upload_file 5 3600 ⟨0, true, "a.fbx", true, some 1, false⟩ [] [] "j").2.2
      = some (⟨"queued", 0, none, false, 0⟩ : App.JobRec)
    ∧ ("queued" : String) ≠ "failed" := by
  refine ⟨rfl, rfl, by decide⟩

/-- C9 amended: an exception inside the background worker is caught and
downgraded to a failed job carrying an error message (the worker always ends
in a terminal status); an exception in the upload handler is caught and
answered with a 500 without terminating the process, but a fault occurring
after the job record is created (e.g. while persisting the upload) leaves
that record in status `queued` — it is never marked failed. -/
theorem internal_fault_amended :
    (∀ (cenv : FBXProcessor.ConvertEnv) (od zf : Bool),
        ((App.process_fbx_job cenv od zf).finalStatus = "completed"
          ∨ (App.process_fbx_job cenv od zf).finalStatus = "failed")
        ∧ ((App.process_fbx_job cenv od zf).finalStatus = "failed" →
            (App.process_fbx_job cenv od zf).error ≠ none))
    ∧ (∀ (N : ℕ) (W : ℚ) (env : App.UploadEnv) (rs : List ℚ)
          (jobs : List (String × App.JobRec)) (jid : String),
        env.saveOk = false →
        (App.upload_file N W env rs jobs jid).1 = App.UploadResp.serverError →
        List.lookup jid jobs = none →
        List.lookup jid (App.upload_file N W env rs jobs jid).2.2
          = some (App.newJob env.now)
        ∧ (App.newJob env.now).status = "queued") := by
  refine ⟨App.process_fbx_job_terminal, ?_⟩
  intro N W env rs jobs jid hsave hresp hfresh
  rcases hr : RateLimiter.is_allowed N W env.now rs with ⟨b, s⟩
  simp only [App.upload_file, hr] at hresp ⊢
  cases b with
  | false => simp at hresp
  | true =>
    cases hhf : env.hasFile with
    | false => simp [hhf] at hresp
    | true =>
      by_cases hfn : env.filename = ""
      · simp [hhf, hfn] at hresp
      · cases hv : env.validOk with
        | false => simp [hhf, hfn, hv] at hresp
        | true =>
          cases hsc : env.scaleVal with
          | none => simp [hhf, hfn, hv, hsc] at hresp
          | some sc =>
            by_cases hrange : sc ≤ 0 ∨ 100 < sc
            · simp [hhf, hfn, hv, hsc, hrange] at hresp
            · refine ⟨?_, rfl⟩
              simp only [hhf, hfn, hv, hsc, hsave, Bool.not_true, Bool.not_false,
                if_neg hrange]
              simp only [Bool.false_eq_true, if_false, if_true]
              rw [App.lookup_append_of_none jid jobs _ hfresh]
              simp [List.lookup_cons]

/-- Witness for C9's amended theorem: a failing Blender stage leaves the job
failed with an error message, and a failed `file.save` leaves the created
job queued. -/
theorem internal_fault_amended_witness :
    ((App.process_fbx_job ⟨.timedOut, [], ⟨true, .timedOut, fun _ => false⟩, true, "m"⟩
        true true).finalStatus = "completed"
      ∨ (App.process_fbx_job ⟨.timedOut, [], ⟨true, .timedOut, fun _ => false⟩, true, "m"⟩
        true true).finalStatus = "failed")
    ∧ List.lookup "j"
        (App.upload_file 5 3600 ⟨0, true, "a.fbx", true, some 1, false⟩ [] [] "j").2.2
      = some (App.newJob 0) := by
  refine ⟨(internal_fault_amended.1 _ true true).1, ?_⟩
  exact (internal_fault_amended.2 5 3600 ⟨0, true, "a.fbx", true, some 1, false⟩
    [] [] "j" rfl rfl rfl).1

/-- C10: an upload admitted by the rate limiter and then rejected
synchronously (no file, empty filename, failed validation, or bad scale)
still consumes quota: the client's stored timestamp list after the request
is the pruned list plus the new timestamp — one longer than the pruned
list — because `is_allowed` appends before any file or parameter check
runs, and no rejection path removes it. -/
theorem upload_rejected_counts (N : ℕ) (W : ℚ) (env : App.UploadEnv)
    (rs : List ℚ) (jobs : List (String × App.JobRec)) (jid : String)
    (hadm : (RateLimiter.is_allowed N W env.now rs).1 = true)
    (hrej : (App.upload_file N W env rs jobs jid).1 = App.UploadResp.noFile
        ∨ (App.upload_file N W env rs jobs jid).1 = App.UploadResp.noFilename
        ∨ (App.upload_file N W env rs jobs jid).1 = App.UploadResp.invalidFile
        ∨ (App.upload_file N W env rs jobs jid).1 = App.UploadResp.badScale) :
    (App.upload_file N W env rs jobs jid).2.1
      = RateLimiter.prune W env.now rs ++ [env.now]
    ∧ (App.upload_file N W env rs jobs jid).2.1.length
      = (RateLimiter.prune W env.now rs).length + 1
    ∧ env.now ∈ (App.upload_file N W env rs jobs jid).2.1 := by
  have hrs : (App.upload_file N W env rs jobs jid).2.1
      = (RateLimiter.is_allowed N W env.now rs).2 := rfl
  have hstate : (RateLimiter.is_allowed N W env.now rs).2
      = RateLimiter.prune W env.now rs ++ [env.now] := by
    rw [App.is_allowed_eq] at hadm ⊢
    by_cases h : (RateLimiter.prune W env.now rs).length < N
    · rw [if_pos h]
    · rw [if_neg h] at hadm
      exact absurd hadm (by simp)
  rw [hrs, hstate]
  exact ⟨rfl, by simp, by simp⟩

/-- Witness for C10: a request with no file attached, from a fresh client,
is admitted then rejected, and the stored timestamp list still grows to
`[now]`. -/
theorem upload_rejected_counts_witness :
    (App.upload_file 5 3600 ⟨0, false, "", true, none, true⟩ [] [] "j").2.1
      = RateLimiter.prune 3600 0 [] ++ [0]
    ∧ (0 : ℚ) ∈ (App.upload_file 5 3600 ⟨0, false, "", true, none, true⟩ [] [] "j").2.1 := by
  refine ⟨?_, ?_⟩
  · exact (upload_rejected_counts 5 3600 ⟨0, false, "", true, none, true⟩ [] [] "j"
      rfl (Or.inl rfl)).1
  · exact (upload_rejected_counts 5 3600 ⟨0, false, "", true, none, true⟩ [] [] "j"
      rfl (Or.inl rfl)).2.2

end FbxService
